import Mathlib

/-!
Shallow embedding of the go-tdag dependency-graph test executor
(github.com/mateothegreat/go-tdag) and proofs about its behaviour.

The embedding follows the `tdag` package (the fixed-context implementation:
`TDag`, `TNode`, `TEdge`, `TStore`), which is the implementation exercised by
the kitchensink test.  The generic `dag` package duplicates the same scheduler
verbatim (without lifecycle hooks); its `Store` (which has a different `Get`
contract) is embedded separately as `Store`.

Modelling conventions:
- Go strings are `String`; a Go `*TNode` is a `TNode` value whose `fn` field
  (a `Nat` tag) stands for the identity of the registered callback closure.
- Go `map[string]bool` sets are duplicate-free `List String` values mutated
  with the idempotent `List.insert` (`m[k] = true`) and read with `∈`
  (`m[k]`); `map[string]int` counters are total functions `String → Int` (a
  missing key reads as the zero value, just like a Go map).
- Recursive Go functions whose termination is not structural are given a fuel
  parameter; the fuel supplied by the wrappers is proved (or, for functions
  used only on concrete inputs, argued in comments) to exceed the maximal
  recursion depth, so the fuel-exhaustion branch is dead code.
- Goroutine waves: the scheduler launches all `available` nodes concurrently
  and joins them (`wg.Wait`) before the next scan.  The per-node bookkeeping
  operations (mark completed, decrement dependents) are performed under one
  mutex and commute with each other, so the state at the barrier is
  deterministic; the model performs them as a fold in `available` order, a
  representative linearization.  Event traces linearize each wave in
  `available` order; none of the proved properties depend on intra-wave order.
-/

namespace Tdag

/-- Go `tdag.TNode`: a registered node.  `id` is the Go `ID` string; `fn`
tags the registered callback closure (Go `Fn TestFn`), so two registrations
with the same id remain distinguishable, as two `*TNode` pointers are. -/
structure TNode where
  id : String
  fn : Nat
deriving DecidableEq

/-- Go `tdag.TEdge`: an ordered dependency pair, `left` before `right`. -/
structure TEdge where
  left : TNode
  right : TNode
deriving DecidableEq

/-- Go `tdag.TDag`: node list, edge list and the four lifecycle hook lists
(hook callbacks are tagged by `Nat`, like node callbacks).  The embedded
`Ctx` (store and `testing.T` handle) carries no scheduling-relevant state:
node callbacks are opaque to the scheduler, so it is omitted here and the
store is modelled separately below. -/
structure TDag where
  nodes : List TNode := []
  edges : List TEdge := []
  setupFns : List Nat := []
  tearDownFns : List Nat := []
  beforeEachFns : List Nat := []
  afterEachFns : List Nat := []
deriving DecidableEq

/-- Go `TDag.AddNode`: unconditionally appends a fresh node and returns it.
There is no duplicate-id check and no error path. -/
def addNode (d : TDag) (id : String) (fn : Nat) : TDag × TNode :=
  let node : TNode := { id := id, fn := fn }
  ({ d with nodes := d.nodes ++ [node] }, node)

/-- Go `TDag.findNodeByID`: linear scan returning the first node whose `ID`
matches, or `nil` (`none`). -/
def findNodeByID (d : TDag) (id : String) : Option TNode :=
  d.nodes.find? fun n => n.id == id

/-- Go `TDag.Setup`: append a setup hook. -/
def setup (d : TDag) (fn : Nat) : TDag :=
  { d with setupFns := d.setupFns ++ [fn] }

/-- Go `TDag.TearDown`: append a teardown hook. -/
def tearDown (d : TDag) (fn : Nat) : TDag :=
  { d with tearDownFns := d.tearDownFns ++ [fn] }

/-- Go `TDag.BeforeEach`: append a before-each hook. -/
def beforeEach (d : TDag) (fn : Nat) : TDag :=
  { d with beforeEachFns := d.beforeEachFns ++ [fn] }

/-- Go `TDag.AfterEach`: append an after-each hook. -/
def afterEach (d : TDag) (fn : Nat) : TDag :=
  { d with afterEachFns := d.afterEachFns ++ [fn] }

/-- Go `TDag.detectCycle`, with fuel.  The Go function marks
`visited[start.ID] = true`, scans all edges, recurses through edges leaving
`start` into unvisited targets, and resets `visited[start.ID] = false` before
returning `false`; on a `true` result it returns immediately.  Consequently a
call that returns `false` restores `visited` exactly, so every iteration of
the edge scan observes `visited ∪ \x7bstart.id\x7d`, which is what this
functional version passes along.  The recursion depth is bounded by the
number of distinct ids ever inserted into `visited`, and every id inserted
beyond the first is the `right` endpoint of some edge, so any fuel exceeding
`edges.length + 1` is never exhausted. -/
def detectCycleF (edges : List TEdge) : Nat → TNode → TNode → List String → Bool
  | 0, _, _, _ => false
  | fuel + 1, start, target, visited =>
    if start.id = target.id then true
    else
      edges.any fun e =>
        e.left.id == start.id && !decide (e.right.id ∈ visited.insert start.id)
          && detectCycleF edges fuel e.right target (visited.insert start.id)

/-- Go `TDag.createsCycle`: `detectCycle` from a fresh `visited` map. -/
def createsCycle (d : TDag) (fromNode toNode : TNode) : Bool :=
  detectCycleF d.edges (d.edges.length + 1) fromNode toNode []

/-- The target loop of Go `TDag.AddEdge`: for each target id, resolve it,
run the cycle check against the current edge list, and append the edge both
to the graph and to the returned list; stop at the first error.  On error Go
returns `nil, err` while keeping `d.Edges` as already grown, which is why the
graph component of the result is the current `d` in every early return. -/
def addEdgeLoop (d : TDag) (fromId : String) (fromNode : TNode) :
    List String → List TEdge → TDag × Except String (List TEdge)
  | [], acc => (d, Except.ok acc)
  | targetId :: rest, acc =>
    match findNodeByID d targetId with
    | none => (d, Except.error s!"node {targetId} does not exist")
    | some targetNode =>
      if createsCycle d fromNode targetNode then
        (d, Except.error s!"adding edge from {fromId} to {targetId} would create a cycle")
      else
        addEdgeLoop { d with edges := d.edges ++ [{ left := fromNode, right := targetNode }] }
          fromId fromNode rest (acc ++ [{ left := fromNode, right := targetNode }])

/-- Go `TDag.AddEdge`: resolve `from`, then process the targets in order. -/
def addEdge (d : TDag) (fromId : String) (toIds : List String) :
    TDag × Except String (List TEdge) :=
  match findNodeByID d fromId with
  | none => (d, Except.error s!"node {fromId} does not exist")
  | some fromNode => addEdgeLoop d fromId fromNode toIds []

/-! ## Stores -/

/-- Go `tdag.TStore`: a mutex-guarded `map[string]interface\x7b\x7d`, modelled
as a total function into `Option`: `none` means the key was never set.  The
mutex serializes `Set`/`Get`, so the sequential model is exact for any
interleaving of whole operations. -/
def TStore (α : Type) : Type := String → Option α

/-- Go `tdag.NewStore`: empty store. -/
def TStore.new (α : Type) : TStore α := fun _ => none

/-- Go `TStore.Set`: unconditional insert/overwrite; it has no error path. -/
def TStore.set {α : Type} (s : TStore α) (key : String) (value : α) : TStore α :=
  Function.update s key (some value)

/-- Go `TStore.Get`: the `value, ok := s.items[key]` comma-ok read; a missing
key is the error `fmt.Errorf("key %s not found", key)`. -/
def TStore.get {α : Type} (s : TStore α) (key : String) : Except String α :=
  match s key with
  | some v => Except.ok v
  | none => Except.error s!"key {key} not found"

/-- Run a sequence of `TStore.Set` calls in order. -/
def applySets {α : Type} (s : TStore α) (ops : List (String × α)) : TStore α :=
  ops.foldl (fun s p => s.set p.1 p.2) s

/-- The value of the last `Set` for `key` in a sequence of `Set` calls. -/
def lastWrite {α : Type} (ops : List (String × α)) (key : String) : Option α :=
  ((ops.filter fun p => p.1 == key).getLast?).map Prod.snd

/-- Go `dag.Store` (the generic package's store): an unguarded
`map[string]interface\x7b\x7d`, same representation as `TStore`. -/
def Store (α : Type) : Type := String → Option α

/-- Go `dag.NewStore`: empty store. -/
def Store.new (α : Type) : Store α := fun _ => none

/-- Go `dag.Store.Set`: unconditional insert/overwrite. -/
def Store.set {α : Type} (s : Store α) (key : String) (value : α) : Store α :=
  Function.update s key (some value)

/-- Go `dag.Store.Get`: `return s.items[key]` — a plain map read with no
comma-ok and no error return.  A never-set key yields the zero value of
`interface` (Go `nil`), which the `Option` codomain renders as `none`; there
is no failure outcome in the return type at all. -/
def Store.get {α : Type} (s : Store α) (key : String) : Option α := s key

/-! ## The scheduler -/

/-- Go `TDag.collectDependencies`, with fuel.  The Go function marks
`collected[nodeID] = true` and then scans all edges, recursing on
`edge.Left.ID` for each edge whose `Right.ID` equals `nodeID` and whose left
id is not yet collected; the `collected` map is shared and never unmarked, so
each recursive call receives the accumulator as grown so far, which is what
the fold threads here.  Every recursive call targets an uncollected id that
is the left endpoint of some edge and immediately collects it, so the
recursion depth never exceeds the number of distinct left-endpoint ids plus
one; the wrapper's fuel `edges.length + 1` therefore never runs out (proved
below as part of the closure characterization). -/
def collectDependenciesF (edges : List TEdge) : Nat → String → List String → List String
  | 0, _, collected => collected
  | fuel + 1, nodeId, collected =>
    edges.foldl
      (fun acc e =>
        if e.right.id = nodeId ∧ e.left.id ∉ acc then
          collectDependenciesF edges fuel e.left.id acc
        else acc)
      (collected.insert nodeId)

/-- Go `TDag.collectDependencies` as called by `RunTo`: fresh `collected`. -/
def collectDependencies (edges : List TEdge) (nodeId : String) : List String :=
  collectDependenciesF edges (edges.length + 1) nodeId []

/-- The `outEdges` adjacency map of `RunTests`/`RunTo`, read at one key:
the map is built by appending `edge.Right` for each edge (in edge order)
whose left id matches — in `RunTo` only when both endpoints are required;
in `RunTests` there is no requirement filter, which coincides with the
everywhere-true filter. -/
def outEdgesOf (required : String → Bool) (edges : List TEdge) (nodeId : String) : List TNode :=
  (edges.filter fun e =>
    required e.left.id && required e.right.id && e.left.id == nodeId).map TEdge.right

/-- The in-degree map as initialized by `RunTests`/`RunTo`: zero for every
(required) node — a no-op on a zero-defaulted map — then one increment per
edge (in `RunTo`, per edge with both endpoints required; `RunTests` has no
filter, the everywhere-true case). -/
def initInDegree (required : String → Bool) (edges : List TEdge) : String → Int :=
  edges.foldl
    (fun f e =>
      if required e.left.id && required e.right.id then
        Function.update f e.right.id (f e.right.id + 1)
      else f)
    fun _ => 0

/-- The `for _, dependent := range outEdges[n.ID] { inDegree[dependent.ID]-- }`
loop of one finished node. -/
def decOut (required : String → Bool) (edges : List TEdge) (nodeId : String)
    (inDegree : String → Int) : String → Int :=
  (outEdgesOf required edges nodeId).foldl
    (fun f dep => Function.update f dep.id (f dep.id - 1)) inDegree

/-- End-of-wave bookkeeping: each finished goroutine, under `completedMux`,
marks its node completed and decrements the in-degree of each node in
`outEdges[n.ID]`.  The per-node blocks commute, so folding them in
`available` order gives the exact state at the `wg.Wait()` barrier. -/
def completeWave (required : String → Bool) (edges : List TEdge) (available : List TNode)
    (completed : List String) (inDegree : String → Int) :
    List String × (String → Int) :=
  available.foldl
    (fun st n => (st.1.insert n.id, decOut required edges n.id st.2))
    (completed, inDegree)

/-- The `for` scheduling loop shared by `RunTests` and `RunTo`, with fuel.
Per iteration: scan `d.Nodes` in order for required, not-completed,
in-degree-zero nodes; if none are available, report the not-completed ids of
the `pool` (`RunTests` reports over `d.Nodes`, `RunTo` over the
`requiredNodes` key set) as a fatal dependency cycle when nonempty, else
exit normally; otherwise run the wave and loop.  Go iterates the `requiredNodes`
map in unspecified order when building the report; the model enumerates the
pool in a fixed order, and only the emptiness and membership of the report
are ever used.  Every productive iteration
completes at least one previously-incomplete node id, so the loop runs at
most (distinct node ids) + 1 iterations and the wrappers' fuel
`nodes.length + 1` is never exhausted (the claims below prove the normal
exit under their hypotheses).  The result pairs the waves run with
`none` for a normal exit or `some remaining` for the fatal report. -/
def scheduleLoop (nodes : List TNode) (edges : List TEdge) (required : String → Bool)
    (pool : List String) : Nat → List String → (String → Int) →
    List (List TNode) × Option (List String)
  | 0, _, _ => ([], some [])
  | fuel + 1, completed, inDegree =>
    let available := nodes.filter fun n =>
      required n.id && !decide (n.id ∈ completed) && inDegree n.id == 0
    if available.isEmpty then
      let remaining := pool.filter fun s => !decide (s ∈ completed)
      if remaining.isEmpty then ([], none) else ([], some remaining)
    else
      let st := completeWave required edges available completed inDegree
      let rest := scheduleLoop nodes edges required pool fuel st.1 st.2
      (available :: rest.1, rest.2)

/-- Observable execution events of one run. -/
inductive Event where
  | setup (fn : Nat)
  | beforeEach (fn : Nat) (nodeId : String)
  | run (node : TNode)
  | afterEach (fn : Nat) (nodeId : String)
  | teardown (fn : Nat)
deriving DecidableEq

/-- The two `t.Fatalf` outcomes of a run. -/
inductive Fatal where
  | unknownTarget (id : String)
  | deadlock (remaining : List String)
deriving DecidableEq

/-- Result of a run: the waves executed, the fatal outcome (if any), and the
linearized event trace.  `t.Fatalf` aborts the calling test function, so on a
fatal outcome the teardown hooks do not run. -/
structure RunResult where
  waves : List (List TNode)
  fatal : Option Fatal
  trace : List Event
deriving DecidableEq

/-- The events of one wave: each node's execution is bracketed by the
before-each hooks, its callback, and the after-each hooks, in that order. -/
def waveEvents (d : TDag) (wave : List TNode) : List Event :=
  (wave.map fun n =>
    (d.beforeEachFns.map fun fn => Event.beforeEach fn n.id)
      ++ Event.run n :: (d.afterEachFns.map fun fn => Event.afterEach fn n.id)).flatten

/-- Go `TDag.RunTests`: in-degree over all edges, no eligibility filter
(modelled as the everywhere-true filter, which makes every filter test a
no-op, matching the filterless source), the scheduling loop, and the
teardown hooks after a normal exit.  The source's `RunTests` does not invoke
`d.SetupFns` anywhere, so no `setup` event is ever emitted. -/
def runTests (d : TDag) : RunResult :=
  let required : String → Bool := fun _ => true
  let r := scheduleLoop d.nodes d.edges required (d.nodes.map TNode.id)
    (d.nodes.length + 1) [] (initInDegree required d.edges)
  { waves := r.1
    fatal := r.2.map Fatal.deadlock
    trace := (r.1.map (waveEvents d)).flatten
      ++ if r.2.isNone then d.tearDownFns.map Event.teardown else [] }

/-- Go `TDag.RunTo`: fatal if the target id is unregistered; otherwise
collect the dependency closure, restrict in-degrees and adjacency to it, run
the setup hooks, run the scheduling loop over the closure, and run the
teardown hooks after a normal exit. -/
def runTo (d : TDag) (id : String) : RunResult :=
  match findNodeByID d id with
  | none => { waves := [], fatal := some (Fatal.unknownTarget id), trace := [] }
  | some _ =>
    let requiredNodes := collectDependencies d.edges id
    let required : String → Bool := fun s => decide (s ∈ requiredNodes)
    let r := scheduleLoop d.nodes d.edges required requiredNodes
      (d.nodes.length + 1) [] (initInDegree required d.edges)
    { waves := r.1
      fatal := r.2.map Fatal.deadlock
      trace := (d.setupFns.map Event.setup)
        ++ (r.1.map (waveEvents d)).flatten
        ++ if r.2.isNone then d.tearDownFns.map Event.teardown else [] }

/-! ## Derived relations used to state the claims -/

/-- One forward step along an existing edge: `a → b` for some edge with left
id `a` and right id `b`. -/
def edgeStep (edges : List TEdge) (a b : String) : Prop :=
  ∃ e ∈ edges, e.left.id = a ∧ e.right.id = b

/-- One dependency step: `b` is a direct dependency of `a` (some edge has
right id `a` and left id `b`), i.e. one step over a reversed edge. -/
def depStep (edges : List TEdge) (a b : String) : Prop :=
  ∃ e ∈ edges, e.right.id = a ∧ e.left.id = b

/-- Acyclicity of an edge list, stated as the existence of a topological
rank; for finite graphs this is equivalent to the absence of directed
cycles. -/
def Acyclic (edges : List TEdge) : Prop :=
  ∃ rank : String → Nat, ∀ e ∈ edges, rank e.left.id < rank e.right.id

/-- The left-endpoint ids of an edge list (the ids the dependency collector
can recurse into). -/
def leftIds (edges : List TEdge) : Finset String :=
  (edges.map fun e => e.left.id).toFinset

/-- Specification counter: the number of eligible edges into `s` whose left
endpoint is not yet completed — the value the scheduler's in-degree map
maintains for `s`. -/
def countInto (required : String → Bool) (edges : List TEdge)
    (completed : List String) (s : String) : Nat :=
  edges.countP fun e =>
    required e.left.id && required e.right.id && e.right.id == s
      && !decide (e.left.id ∈ completed)

/-- Specification counter: the number of eligible edges from `nodeId` to
`s` — how many decrements completing `nodeId` applies to `s`. -/
def countOut (required : String → Bool) (edges : List TEdge)
    (nodeId s : String) : Nat :=
  edges.countP fun e =>
    required e.left.id && required e.right.id && e.left.id == nodeId
      && e.right.id == s

/-! ## Concrete graphs used as scenario inputs -/

/-- Nodes `A`,`B`,`C` with edges `A→B`, `B→C`, built through the API. -/
def dagABC : TDag :=
  let d1 := (addNode {} "A" 0).1
  let d2 := (addNode d1 "B" 1).1
  let d3 := (addNode d2 "C" 2).1
  (addEdge (addEdge d3 "A" ["B"]).1 "B" ["C"]).1

/-- Nodes `A`,`B`,`C`,`D` with edges `A→B`, `B→C`, `A→D` (the spec's
full-run scenario), built through the API. -/
def dagABCD : TDag :=
  let d1 := (addNode {} "A" 0).1
  let d2 := (addNode d1 "B" 1).1
  let d3 := (addNode d2 "C" 2).1
  let d4 := (addNode d3 "D" 3).1
  (addEdge (addEdge (addEdge d4 "A" ["B"]).1 "B" ["C"]).1 "A" ["D"]).1

/-- A single node `X` with one setup hook and one teardown hook. -/
def dagX : TDag :=
  { nodes := [{ id := "X", fn := 0 }], setupFns := [5], tearDownFns := [7] }

/-- Two registered nodes sharing the identifier `A` (distinct callbacks). -/
def dagDup : TDag :=
  { nodes := [{ id := "A", fn := 0 }, { id := "A", fn := 1 }] }

/-! # Store theorems -/

theorem TStore.get_set_self {α : Type} (s : TStore α) (key : String) (v : α) :
    (s.set key v).get key = Except.ok v := by
  simp [TStore.get, TStore.set, Function.update_same]

theorem TStore.get_set_ne {α : Type} (s : TStore α) {key k : String} (h : key ≠ k) (v : α) :
    (s.set k v).get key = s.get key := by
  simp [TStore.get, TStore.set, Function.update_noteq h]

/-- A sequence of sets that never touches `key` leaves its cell unchanged. -/
theorem applySets_apply_of_ne {α : Type} :
    ∀ (ops : List (String × α)) (s : TStore α) (key : String),
      (∀ p ∈ ops, p.1 ≠ key) → applySets s ops key = s key
  | [], _, _, _ => rfl
  | p :: rest, s, key, h => by
    have hp : key ≠ p.1 := Ne.symm (h p (List.mem_cons_self p rest))
    have hr : applySets (s.set p.1 p.2) rest key = (s.set p.1 p.2) key :=
      applySets_apply_of_ne rest _ key fun q hq => h q (List.mem_cons_of_mem p hq)
    show applySets (s.set p.1 p.2) rest key = s key
    rw [hr]
    exact Function.update_noteq hp _ _

/-- `Get` after the sets of `ops` returns the last value written to `key`. -/
theorem get_applySets_lastWrite {α : Type} (ops : List (String × α)) (key : String) (v : α)
    (h : lastWrite ops key = some v) :
    ∀ s : TStore α, (applySets s ops).get key = Except.ok v := by
  induction ops using List.reverseRecOn with
  | nil => simp [lastWrite] at h
  | append_singleton l p ih =>
    intro s
    have happ : applySets s (l ++ [p]) = (applySets s l).set p.1 p.2 := by
      simp [applySets, List.foldl_append]
    by_cases hp : p.1 = key
    · have hv : v = p.2 := by
        simp [lastWrite, List.reverse_append, List.find?, hp] at h
        exact h.symm
      rw [happ, hp, hv]
      exact TStore.get_set_self _ key p.2
    · have hl : lastWrite l key = some v := by
        simpa [lastWrite, List.reverse_append, List.find?, hp] using h
      rw [happ, TStore.get_set_ne _ (Ne.symm hp)]
      exact ih hl s

/-- C9: `TStore.Set` has no failure path and overwrites unconditionally, and
after any sequence of `Set` calls, `Get key` returns the value of the last
`Set` on `key` (last-write-wins; the store mutex serializes operations, so
any concurrent history is equivalent to the modelled sequential one). -/
theorem c9_store_last_write_wins {α : Type} :
    (∀ (s : TStore α) (key : String) (v : α), (s.set key v).get key = Except.ok v) ∧
    (∀ (ops : List (String × α)) (key : String) (v : α),
      lastWrite ops key = some v →
      ∀ s : TStore α, (applySets s ops).get key = Except.ok v) :=
  ⟨fun s key v => TStore.get_set_self s key v,
   fun ops key v h s => get_applySets_lastWrite ops key v h s⟩

theorem c9_store_last_write_wins_witness :
    lastWrite [("k", 1), ("k", 2)] "k" = some 2 ∧
    (applySets (TStore.new Nat) [("k", 1), ("k", 2)]).get "k" = Except.ok 2 :=
  ⟨rfl, (c9_store_last_write_wins (α := Nat)).2 [("k", 1), ("k", 2)] "k" 2 rfl (TStore.new Nat)⟩

/-- C6 counterexample: the claim quantifies over "every store", and its
sources include `dag.Store.Get`, which returns `s.items[key]` directly:
reading a never-set key succeeds with Go's `nil` (modelled `none`) — its
return type has no failure outcome at all, so it does not fail with a
Not-Found error as the claim states. -/
theorem c6_store_get_counterexample :
    Store.get (Store.new Nat) "email" = none := rfl

/-- C6 (amended to the mutex-guarded `tdag.TStore`, the shared store of the
core): `TStore.Get` on a key never set by any `Set` of the history fails
with the Not-Found error. -/
theorem c6_tstore_get_never_set {α : Type} (ops : List (String × α)) (key : String)
    (h : ∀ p ∈ ops, p.1 ≠ key) :
    (applySets (TStore.new α) ops).get key = Except.error s!"key {key} not found" := by
  have hcell : applySets (TStore.new α) ops key = none :=
    applySets_apply_of_ne ops _ key h
  simp [TStore.get, hcell]

theorem c6_tstore_get_never_set_witness :
    (∀ p ∈ ([("a", 1)] : List (String × Nat)), p.1 ≠ "email") ∧
    (applySets (TStore.new Nat) [("a", 1)]).get "email" = Except.error "key email not found" :=
  ⟨by decide, c6_tstore_get_never_set [("a", 1)] "email" (by decide)⟩

/-! # Graph construction theorems -/

/-- C10: `AddNode` has no error path and appends unconditionally, even when
the identifier is already registered (no Duplicate-ID error, no overwrite);
`findNodeByID` — the only identifier lookup, used by `AddEdge` for both
endpoints and by `RunTo` for the target — returns the first-registered node
bearing the identifier, and registering another node (with any id) never
changes the result of an already-successful lookup, so later duplicates are
never referenced. -/
theorem c10_addNode_append_first_lookup (d : TDag) (id : String) (fn : Nat) :
    ((addNode d id fn).1.nodes = d.nodes ++ [{ id := id, fn := fn }]) ∧
    (∀ n, findNodeByID d id = some n →
      n.id = id ∧ ∃ pre post, d.nodes = pre ++ n :: post ∧ ∀ m ∈ pre, m.id ≠ id) ∧
    (∀ n, findNodeByID d id = some n →
      ∀ id2 fn2, findNodeByID (addNode d id2 fn2).1 id = some n) := by
  refine ⟨rfl, ?_, ?_⟩
  · intro n h
    rw [findNodeByID, List.find?_eq_some] at h
    obtain ⟨hpn, pre, post, hsplit, hpre⟩ := h
    refine ⟨by simpa using hpn, pre, post, hsplit, fun m hm => ?_⟩
    simpa using hpre m hm
  · intro n h id2 fn2
    show ((d.nodes ++ [({ id := id2, fn := fn2 } : TNode)]).find? fun n => n.id == id) = some n
    rw [findNodeByID] at h
    rw [List.find?_append, h]
    rfl

theorem c10_addNode_append_first_lookup_witness :
    findNodeByID dagDup "A" = some { id := "A", fn := 0 } ∧
    (addNode dagDup "A" 2).1.nodes = dagDup.nodes ++ [{ id := "A", fn := 2 }] ∧
    (∃ pre post, dagDup.nodes = pre ++ { id := "A", fn := 0 } :: post ∧
      ∀ m ∈ pre, m.id ≠ "A") ∧
    findNodeByID (addNode dagDup "A" 2).1 "A" = some { id := "A", fn := 0 } :=
  ⟨rfl,
   (c10_addNode_append_first_lookup dagDup "A" 2).1,
   ((c10_addNode_append_first_lookup dagDup "A" 2).2.1 { id := "A", fn := 0 } rfl).2,
   (c10_addNode_append_first_lookup dagDup "A" 2).2.2 { id := "A", fn := 0 } rfl "A" 2⟩

/-- C1 is violated by the code: with edges `A→B`, `B→C`, the call
`AddEdge("C", "A")` closes the cycle `A→B→C→A`, yet it succeeds — the cycle
check `createsCycle(from, to)` searches forward from `from` for `to` (here:
from `C` for `A`), finds nothing, and the edge is appended, leaving a cyclic
edge set.  The error path the claim requires is never taken. -/
theorem c1_cycle_edge_accepted :
    (addEdge dagABC "C" ["A"]).2 =
      Except.ok [{ left := { id := "C", fn := 2 }, right := { id := "A", fn := 0 } }]
    ∧ (addEdge dagABC "C" ["A"]).1.edges =
      [{ left := { id := "A", fn := 0 }, right := { id := "B", fn := 1 } },
       { left := { id := "B", fn := 1 }, right := { id := "C", fn := 2 } },
       { left := { id := "C", fn := 2 }, right := { id := "A", fn := 0 } }]
    ∧ ¬ Acyclic (addEdge dagABC "C" ["A"]).1.edges := by
  refine ⟨rfl, rfl, ?_⟩
  rintro ⟨rank, h⟩
  have hE : (addEdge dagABC "C" ["A"]).1.edges =
      [{ left := { id := "A", fn := 0 }, right := { id := "B", fn := 1 } },
       { left := { id := "B", fn := 1 }, right := { id := "C", fn := 2 } },
       { left := { id := "C", fn := 2 }, right := { id := "A", fn := 0 } }] := rfl
  rw [hE] at h
  have h1 := h { left := { id := "A", fn := 0 }, right := { id := "B", fn := 1 } } (by simp)
  have h2 := h { left := { id := "B", fn := 1 }, right := { id := "C", fn := 2 } } (by simp)
  have h3 := h { left := { id := "C", fn := 2 }, right := { id := "A", fn := 0 } } (by simp)
  simp only at h1 h2 h3
  omega

/-- C2 is violated by the code: with edges `A→B`, `B→C`, the target `C` is
already reachable forward from `A`, so by the claim (and the spec's
§4.3 algorithm description) `AddEdge("A", "C")` is safe and must be
appended; the code instead treats the successful forward search as a cycle
and rejects the edge, leaving the graph unchanged. -/
theorem c2_reachable_target_rejected :
    Relation.ReflTransGen (edgeStep dagABC.edges) "A" "C"
    ∧ addEdge dagABC "A" ["C"] =
      (dagABC, Except.error "adding edge from A to C would create a cycle") := by
  constructor
  · have h1 : edgeStep dagABC.edges "A" "B" :=
      ⟨{ left := { id := "A", fn := 0 }, right := { id := "B", fn := 1 } }, by decide, rfl, rfl⟩
    have h2 : edgeStep dagABC.edges "B" "C" :=
      ⟨{ left := { id := "B", fn := 1 }, right := { id := "C", fn := 2 } }, by decide, rfl, rfl⟩
    exact Relation.ReflTransGen.tail (Relation.ReflTransGen.tail Relation.ReflTransGen.refl h1) h2
  · rfl

theorem addEdgeLoop_cons_none {d : TDag} {fromId : String} {fromNode : TNode}
    {t : String} {rest : List String} {acc : List TEdge}
    (h : findNodeByID d t = none) :
    addEdgeLoop d fromId fromNode (t :: rest) acc =
      (d, Except.error s!"node {t} does not exist") := by
  rw [addEdgeLoop, h]

theorem addEdgeLoop_cons_cycle {d : TDag} {fromId : String} {fromNode : TNode}
    {t : String} {rest : List String} {acc : List TEdge} {tn : TNode}
    (h : findNodeByID d t = some tn) (hc : createsCycle d fromNode tn = true) :
    addEdgeLoop d fromId fromNode (t :: rest) acc =
      (d, Except.error s!"adding edge from {fromId} to {t} would create a cycle") := by
  rw [addEdgeLoop, h]
  simp [hc]

theorem addEdgeLoop_cons_ok {d : TDag} {fromId : String} {fromNode : TNode}
    {t : String} {rest : List String} {acc : List TEdge} {tn : TNode}
    (h : findNodeByID d t = some tn) (hc : createsCycle d fromNode tn = false) :
    addEdgeLoop d fromId fromNode (t :: rest) acc =
      addEdgeLoop { d with edges := d.edges ++ [{ left := fromNode, right := tn }] }
        fromId fromNode rest (acc ++ [{ left := fromNode, right := tn }]) := by
  rw [addEdgeLoop, h]
  simp [hc]

/-- The accumulator of the `AddEdge` target loop only prefixes the returned
list; the resulting graph and any error are independent of it. -/
theorem addEdgeLoop_acc (fromId : String) (fromNode : TNode) :
    ∀ (ts : List String) (d : TDag) (acc : List TEdge),
      addEdgeLoop d fromId fromNode ts acc =
        ((addEdgeLoop d fromId fromNode ts []).1,
          (addEdgeLoop d fromId fromNode ts []).2.map fun es => acc ++ es)
  | [], d, acc => by simp [addEdgeLoop, Except.map]
  | t :: rest, d, acc => by
    cases h : findNodeByID d t with
    | none => rw [addEdgeLoop_cons_none h, addEdgeLoop_cons_none h]; rfl
    | some tn =>
      cases hc : createsCycle d fromNode tn with
      | true => rw [addEdgeLoop_cons_cycle h hc, addEdgeLoop_cons_cycle h hc]; rfl
      | false =>
        rw [addEdgeLoop_cons_ok h hc, addEdgeLoop_cons_ok h hc]
        set d1 : TDag := { d with edges := d.edges ++ [{ left := fromNode, right := tn }] }
          with hd1
        have h1 := addEdgeLoop_acc fromId fromNode rest d1
          (acc ++ [{ left := fromNode, right := tn }])
        have h2 := addEdgeLoop_acc fromId fromNode rest d1
          ([] ++ [{ left := fromNode, right := tn }])
        rw [h1, h2]
        cases hP : (addEdgeLoop d1 fromId fromNode rest []).2 with
        | error msg => rfl
        | ok es => simp [Except.map]

/-- Behaviour of the `AddEdge` target loop: the node list is untouched; on
success the created edges are exactly the appended ones; on an error the
targets split into a prefix that succeeds (producing exactly the final
graph) followed by the failing target, whose single-target run from the
final graph reproduces the same error. -/
theorem addEdgeLoop_spec (fromId : String) (fromNode : TNode) :
    ∀ (ts : List String) (d : TDag),
      (addEdgeLoop d fromId fromNode ts []).1.nodes = d.nodes ∧
      (∀ es, (addEdgeLoop d fromId fromNode ts []).2 = Except.ok es →
        (addEdgeLoop d fromId fromNode ts []).1.edges = d.edges ++ es) ∧
      (∀ msg, (addEdgeLoop d fromId fromNode ts []).2 = Except.error msg →
        ∃ pre t post, ts = pre ++ t :: post ∧
          (∃ es, addEdgeLoop d fromId fromNode pre [] =
            ((addEdgeLoop d fromId fromNode ts []).1, Except.ok es)) ∧
          addEdgeLoop (addEdgeLoop d fromId fromNode ts []).1 fromId fromNode [t] [] =
            ((addEdgeLoop d fromId fromNode ts []).1, Except.error msg))
  | [], d => by
    refine ⟨rfl, ?_, ?_⟩
    · intro es h
      have h' : Except.ok ([] : List TEdge) = Except.ok es := h
      injection h' with h''
      show d.edges = d.edges ++ es
      rw [← h'']
      simp
    · intro msg h
      exact absurd h (by simp [addEdgeLoop])
  | t :: rest, d => by
    cases h : findNodeByID d t with
    | none =>
      rw [addEdgeLoop_cons_none h]
      refine ⟨rfl, ?_, ?_⟩
      · intro es hok; exact absurd hok (by simp)
      · intro msg herr
        have h' : (Except.error s!"node {t} does not exist" : Except String (List TEdge))
            = Except.error msg := herr
        injection h' with h''
        refine ⟨[], t, rest, rfl, ⟨[], rfl⟩, ?_⟩
        rw [addEdgeLoop_cons_none h, h'']
    | some tn =>
      cases hc : createsCycle d fromNode tn with
      | true =>
        rw [addEdgeLoop_cons_cycle h hc]
        refine ⟨rfl, ?_, ?_⟩
        · intro es hok; exact absurd hok (by simp)
        · intro msg herr
          have h' : (Except.error s!"adding edge from {fromId} to {t} would create a cycle"
              : Except String (List TEdge)) = Except.error msg := herr
          injection h' with h''
          refine ⟨[], t, rest, rfl, ⟨[], rfl⟩, ?_⟩
          rw [addEdgeLoop_cons_cycle h hc, h'']
      | false =>
        rw [addEdgeLoop_cons_ok h hc]
        set d1 : TDag := { d with edges := d.edges ++ [{ left := fromNode, right := tn }] }
          with hd1
        have h2 := addEdgeLoop_acc fromId fromNode rest d1
          ([] ++ [{ left := fromNode, right := tn }])
        rw [h2]
        obtain ⟨hn, hok, herr⟩ := addEdgeLoop_spec fromId fromNode rest d1
        refine ⟨hn, ?_, ?_⟩
        · intro es hes
          cases hP : (addEdgeLoop d1 fromId fromNode rest []).2 with
          | error m => rw [hP] at hes; exact absurd hes (by simp [Except.map])
          | ok es0 =>
            rw [hP] at hes
            have h' : (Except.ok (([] ++ [{ left := fromNode, right := tn }]) ++ es0)
                : Except String (List TEdge)) = Except.ok es := hes
            injection h' with h''
            show (addEdgeLoop d1 fromId fromNode rest []).1.edges = d.edges ++ es
            rw [hok es0 hP, ← h'', hd1]
            simp
        · intro msg hmsg
          cases hP : (addEdgeLoop d1 fromId fromNode rest []).2 with
          | ok es0 => rw [hP] at hmsg; exact absurd hmsg (by simp [Except.map])
          | error m =>
            rw [hP] at hmsg
            have h' : (Except.error m : Except String (List TEdge)) = Except.error msg := hmsg
            injection h' with h''
            obtain ⟨pre, t', post, hsplit, ⟨es1, hpre⟩, hsingle⟩ := herr m hP
            refine ⟨t :: pre, t', post, by rw [hsplit]; simp,
              ⟨([] ++ [{ left := fromNode, right := tn }]) ++ es1, ?_⟩,
              by rw [← h'']; exact hsingle⟩
            have h3 := addEdgeLoop_acc fromId fromNode pre d1
              ([] ++ [{ left := fromNode, right := tn }])
            rw [addEdgeLoop_cons_ok h hc, ← hd1, h3, hpre]
            rfl

theorem addEdge_none {d : TDag} {fromId : String}
    (h : findNodeByID d fromId = none) (ts : List String) :
    addEdge d fromId ts = (d, Except.error s!"node {fromId} does not exist") := by
  rw [addEdge, h]

theorem addEdge_some {d : TDag} {fromId : String} {fromNode : TNode}
    (h : findNodeByID d fromId = some fromNode) (ts : List String) :
    addEdge d fromId ts = addEdgeLoop d fromId fromNode ts [] := by
  rw [addEdge, h]

/-- C8: an `AddEdge(from, to...)` call leaves the node list unchanged and
only appends to the edge list; on full success it returns exactly the list
of edges appended; on a failure it returns the first error — either the
unknown `from` (before any target is processed), or after a prefix of
targets has succeeded (and those edges are retained, no rollback), the first
failing target, whose single-target call from the resulting graph
reproduces the same error (Unknown-Node or cycle rejection). -/
theorem c8_addEdge_first_error_no_rollback (d : TDag) (fromId : String) (toIds : List String) :
    ((addEdge d fromId toIds).1.nodes = d.nodes) ∧
    (∀ es, (addEdge d fromId toIds).2 = Except.ok es →
      (addEdge d fromId toIds).1.edges = d.edges ++ es) ∧
    (∀ msg, (addEdge d fromId toIds).2 = Except.error msg →
      (findNodeByID d fromId = none ∧ (addEdge d fromId toIds).1 = d ∧
        msg = s!"node {fromId} does not exist") ∨
      (∃ pre t post, toIds = pre ++ t :: post ∧
        (∃ es, addEdge d fromId pre = ((addEdge d fromId toIds).1, Except.ok es)) ∧
        addEdge (addEdge d fromId toIds).1 fromId [t] =
          ((addEdge d fromId toIds).1, Except.error msg))) := by
  cases h : findNodeByID d fromId with
  | none =>
    refine ⟨by rw [addEdge_none h], ?_, ?_⟩
    · intro es hok
      rw [addEdge_none h] at hok
      exact absurd hok (by simp)
    · intro msg herr
      rw [addEdge_none h] at herr
      have h' : (Except.error s!"node {fromId} does not exist" : Except String (List TEdge))
          = Except.error msg := herr
      injection h' with h''
      exact Or.inl ⟨rfl, by rw [addEdge_none h], h''.symm⟩
  | some fromNode =>
    simp only [addEdge_some h]
    obtain ⟨hn, hok, herr⟩ := addEdgeLoop_spec fromId fromNode toIds d
    refine ⟨hn, hok, ?_⟩
    intro msg hmsg
    obtain ⟨pre, t, post, hsplit, hpre, hsingle⟩ := herr msg hmsg
    have hres : findNodeByID (addEdgeLoop d fromId fromNode toIds []).1 fromId =
        some fromNode := by
      rw [findNodeByID, hn, ← findNodeByID, h]
    simp only [addEdge_some hres]
    exact Or.inr ⟨pre, t, post, hsplit, hpre, hsingle⟩

/-- Wave events consist only of before-each, run and after-each events. -/
theorem setup_not_mem_waveEvents_flatten (d : TDag) (ws : List (List TNode)) (i : Nat) :
    Event.setup i ∉ (ws.map (waveEvents d)).flatten := by
  intro h
  rw [List.mem_flatten] at h
  obtain ⟨l, hl, hmem⟩ := h
  rw [List.mem_map] at hl
  obtain ⟨w, _, rfl⟩ := hl
  rw [waveEvents, List.mem_flatten] at hmem
  obtain ⟨b, hb, hmem2⟩ := hmem
  rw [List.mem_map] at hb
  obtain ⟨n, _, rfl⟩ := hb
  simp at hmem2

/-- Wave events consist only of before-each, run and after-each events. -/
theorem teardown_not_mem_waveEvents_flatten (d : TDag) (ws : List (List TNode)) (i : Nat) :
    Event.teardown i ∉ (ws.map (waveEvents d)).flatten := by
  intro h
  rw [List.mem_flatten] at h
  obtain ⟨l, hl, hmem⟩ := h
  rw [List.mem_map] at hl
  obtain ⟨w, _, rfl⟩ := hl
  rw [waveEvents, List.mem_flatten] at hmem
  obtain ⟨b, hb, hmem2⟩ := hmem
  rw [List.mem_map] at hb
  obtain ⟨n, _, rfl⟩ := hb
  simp at hmem2

/-- No setup event occurs anywhere in a `RunTests` trace. -/
theorem setup_not_mem_runTests_trace (d : TDag) (i : Nat) :
    Event.setup i ∉ (runTests d).trace := by
  intro hmem
  have htr : (runTests d).trace =
      ((scheduleLoop d.nodes d.edges (fun _ => true) (d.nodes.map TNode.id)
          (d.nodes.length + 1) [] (initInDegree (fun _ => true) d.edges)).1.map
        (waveEvents d)).flatten ++
        if (scheduleLoop d.nodes d.edges (fun _ => true) (d.nodes.map TNode.id)
            (d.nodes.length + 1) [] (initInDegree (fun _ => true) d.edges)).2.isNone then
          d.tearDownFns.map Event.teardown
        else [] := rfl
  rw [htr, List.mem_append] at hmem
  rcases hmem with h | h
  · exact setup_not_mem_waveEvents_flatten d _ i h
  · split at h
    · simp at h
    · simp at h

/-- C5 is violated by the code for the full run: `RunTests` contains no call
to `d.SetupFns` at all (in contrast to `RunTo`, which runs them before its
scheduling loop, and in contrast to `RunTests`'s own teardown call), so no
execution of `RunTests` ever runs a setup hook — in particular not before
node callbacks: the trace of any full run contains not a single setup
event. -/
theorem c5_runTests_never_runs_setup (d : TDag) :
    ((runTests d).trace.filter fun ev =>
      match ev with
      | Event.setup _ => true
      | _ => false) = [] := by
  refine List.filter_eq_nil_iff.mpr ?_
  intro ev hmem
  cases ev with
  | setup i => exact absurd hmem (setup_not_mem_runTests_trace d i)
  | beforeEach fn nid => simp
  | run n => simp
  | afterEach fn nid => simp
  | teardown fn => simp

/-- C7: in both `RunTests` and `RunTo`, when the scheduling loop exits
normally (no fatal report), the teardown hooks run exactly once each,
sequentially and in registration order, strictly after every other event of
the run; on the fatal path `t.Fatalf` aborts the test and no teardown event
is emitted. -/
theorem c7_teardown_after_normal_exit (d : TDag) (targetId : String) :
    ((runTests d).fatal = none →
      ∃ body, (runTests d).trace = body ++ d.tearDownFns.map Event.teardown ∧
        ∀ i, Event.teardown i ∉ body) ∧
    ((runTo d targetId).fatal = none →
      ∃ body, (runTo d targetId).trace = body ++ d.tearDownFns.map Event.teardown ∧
        ∀ i, Event.teardown i ∉ body) := by
  constructor
  · intro hfat
    have hfat2 : (scheduleLoop d.nodes d.edges (fun _ => true) (d.nodes.map TNode.id)
        (d.nodes.length + 1) [] (initInDegree (fun _ => true) d.edges)).2 = none := by
      have h0 : (runTests d).fatal =
          (scheduleLoop d.nodes d.edges (fun _ => true) (d.nodes.map TNode.id)
            (d.nodes.length + 1) [] (initInDegree (fun _ => true) d.edges)).2.map
              Fatal.deadlock := rfl
      rw [h0] at hfat
      exact Option.map_eq_none'.mp hfat
    refine ⟨((scheduleLoop d.nodes d.edges (fun _ => true) (d.nodes.map TNode.id)
        (d.nodes.length + 1) [] (initInDegree (fun _ => true) d.edges)).1.map
          (waveEvents d)).flatten, ?_, ?_⟩
    · have htr : (runTests d).trace =
          ((scheduleLoop d.nodes d.edges (fun _ => true) (d.nodes.map TNode.id)
              (d.nodes.length + 1) [] (initInDegree (fun _ => true) d.edges)).1.map
            (waveEvents d)).flatten ++
            if (scheduleLoop d.nodes d.edges (fun _ => true) (d.nodes.map TNode.id)
                (d.nodes.length + 1) [] (initInDegree (fun _ => true) d.edges)).2.isNone then
              d.tearDownFns.map Event.teardown
            else [] := rfl
      rw [htr, hfat2]
      rfl
    · intro i
      exact teardown_not_mem_waveEvents_flatten d _ i
  · intro hfat
    cases hT : findNodeByID d targetId with
    | none =>
      have h0 : (runTo d targetId).fatal = some (Fatal.unknownTarget targetId) := by
        simp only [runTo, hT]
      rw [h0] at hfat
      exact absurd hfat (by simp)
    | some tn =>
      have hfat2 : (scheduleLoop d.nodes d.edges
          (fun s => decide (s ∈ collectDependencies d.edges targetId))
          (collectDependencies d.edges targetId) (d.nodes.length + 1) []
          (initInDegree (fun s => decide (s ∈ collectDependencies d.edges targetId))
            d.edges)).2 = none := by
        have h0 : (runTo d targetId).fatal = (scheduleLoop d.nodes d.edges
            (fun s => decide (s ∈ collectDependencies d.edges targetId))
            (collectDependencies d.edges targetId) (d.nodes.length + 1) []
            (initInDegree (fun s => decide (s ∈ collectDependencies d.edges targetId))
              d.edges)).2.map Fatal.deadlock := by
          simp only [runTo, hT]
        rw [h0] at hfat
        exact Option.map_eq_none'.mp hfat
      refine ⟨d.setupFns.map Event.setup ++ ((scheduleLoop d.nodes d.edges
          (fun s => decide (s ∈ collectDependencies d.edges targetId))
          (collectDependencies d.edges targetId) (d.nodes.length + 1) []
          (initInDegree (fun s => decide (s ∈ collectDependencies d.edges targetId))
            d.edges)).1.map (waveEvents d)).flatten, ?_, ?_⟩
      · have htr : (runTo d targetId).trace = d.setupFns.map Event.setup ++
            ((scheduleLoop d.nodes d.edges
              (fun s => decide (s ∈ collectDependencies d.edges targetId))
              (collectDependencies d.edges targetId) (d.nodes.length + 1) []
              (initInDegree (fun s => decide (s ∈ collectDependencies d.edges targetId))
                d.edges)).1.map (waveEvents d)).flatten ++
              if (scheduleLoop d.nodes d.edges
                  (fun s => decide (s ∈ collectDependencies d.edges targetId))
                  (collectDependencies d.edges targetId) (d.nodes.length + 1) []
                  (initInDegree (fun s => decide (s ∈ collectDependencies d.edges targetId))
                    d.edges)).2.isNone then
                d.tearDownFns.map Event.teardown
              else [] := by
          simp only [runTo, hT]
        rw [htr, hfat2]
        simp [List.append_assoc]
      · intro i hmem
        rw [List.mem_append] at hmem
        rcases hmem with h | h
        · rw [List.mem_map] at h
          obtain ⟨x, _, hx⟩ := h
          exact absurd hx (by simp)
        · exact teardown_not_mem_waveEvents_flatten d _ i h

theorem c7_teardown_after_normal_exit_witness :
    (runTests dagX).fatal = none ∧
    (∃ body, (runTests dagX).trace = body ++ dagX.tearDownFns.map Event.teardown ∧
      ∀ i, Event.teardown i ∉ body) ∧
    (runTo dagX "X").fatal = none ∧
    (∃ body, (runTo dagX "X").trace = body ++ dagX.tearDownFns.map Event.teardown ∧
      ∀ i, Event.teardown i ∉ body) :=
  ⟨rfl, (c7_teardown_after_normal_exit dagX "X").1 rfl,
   rfl, (c7_teardown_after_normal_exit dagX "X").2 rfl⟩

/-! # Dependency-closure collector: correctness

The collector's fuel (`edges.length + 1`) always exceeds its recursion
depth: each recursive call targets an uncollected left-endpoint id and
immediately collects it, so the chain of nested calls consists of distinct
ids from `leftIds edges` (plus the initial target).  The lemmas below carry
the cardinality bound `card (insert nodeId (leftIds edges) \ collected) ≤
fuel` through the recursion, which in particular shows the fuel-exhaustion
branch is never taken at the wrapper's fuel. -/

theorem toFinset_list_insert (l : List String) (a : String) :
    (l.insert a).toFinset = insert a l.toFinset := by
  ext x
  simp [List.mem_insert_iff]

/-- A fold whose step never shrinks a set accumulator never shrinks it. -/
theorem foldl_subset {β : Type} (g : List String → β → List String)
    (hg : ∀ acc b, acc ⊆ g acc b) :
    ∀ (es : List β) (acc : List String), acc ⊆ es.foldl g acc
  | [], _ => fun _ hx => hx
  | e :: rest, acc => fun _ hx => foldl_subset g hg rest (g acc e) (hg acc e hx)

/-- The collector only grows the `collected` set. -/
theorem subset_collectF (edges : List TEdge) :
    ∀ (fuel : Nat) (nodeId : String) (collected : List String),
      collected ⊆ collectDependenciesF edges fuel nodeId collected
  | 0, _, _ => fun _ hx => hx
  | fuel + 1, nodeId, collected => by
    show collected ⊆ edges.foldl
      (fun acc e => if e.right.id = nodeId ∧ e.left.id ∉ acc then
        collectDependenciesF edges fuel e.left.id acc else acc)
      (collected.insert nodeId)
    intro x hx
    refine foldl_subset _ ?_ edges (collected.insert nodeId) (List.mem_insert_of_mem hx)
    intro acc e
    dsimp only
    split
    · exact subset_collectF edges fuel _ acc
    · exact fun _ h => h

/-- With any fuel at all, the collector collects its target. -/
theorem mem_collectF_self (edges : List TEdge) :
    ∀ (fuel : Nat), 1 ≤ fuel → ∀ (nodeId : String) (collected : List String),
      nodeId ∈ collectDependenciesF edges fuel nodeId collected
  | 0, h => absurd h (by omega)
  | fuel + 1, _ => fun nodeId collected => by
    show nodeId ∈ edges.foldl
      (fun acc e => if e.right.id = nodeId ∧ e.left.id ∉ acc then
        collectDependenciesF edges fuel e.left.id acc else acc)
      (collected.insert nodeId)
    refine foldl_subset _ ?_ edges (collected.insert nodeId) (List.mem_insert_self _ _)
    intro acc e
    dsimp only
    split
    · exact subset_collectF edges fuel _ acc
    · exact fun _ h => h

/-- Everything the collector adds is an iterated dependency of the target. -/
theorem collectF_sound (edges : List TEdge) :
    ∀ (fuel : Nat) (nodeId : String) (collected : List String) (s : String),
      s ∈ collectDependenciesF edges fuel nodeId collected →
      s ∈ collected ∨ Relation.ReflTransGen (depStep edges) nodeId s
  | 0, _, _, _ => fun h => Or.inl h
  | fuel + 1, nodeId, collected, s => by
    show s ∈ edges.foldl
      (fun acc e => if e.right.id = nodeId ∧ e.left.id ∉ acc then
        collectDependenciesF edges fuel e.left.id acc else acc)
      (collected.insert nodeId) → _
    suffices H : ∀ (es : List TEdge), (∀ e ∈ es, e ∈ edges) →
        ∀ (acc : List String),
        (∀ x ∈ acc, x ∈ collected ∨ Relation.ReflTransGen (depStep edges) nodeId x) →
        ∀ x ∈ es.foldl
          (fun acc e => if e.right.id = nodeId ∧ e.left.id ∉ acc then
            collectDependenciesF edges fuel e.left.id acc else acc) acc,
          x ∈ collected ∨ Relation.ReflTransGen (depStep edges) nodeId x by
      intro hs
      refine H edges (fun _ he => he) (collected.insert nodeId) ?_ s hs
      intro x hx
      rcases List.mem_insert_iff.mp hx with rfl | hx
      · exact Or.inr Relation.ReflTransGen.refl
      · exact Or.inl hx
    intro es
    induction es with
    | nil => exact fun _ acc hacc x hx => hacc x hx
    | cons e rest ih =>
      intro hsub acc hacc x hx
      rw [List.foldl_cons] at hx
      refine ih (fun e' he' => hsub e' (List.mem_cons_of_mem e he')) _ ?_ x hx
      intro y hy
      by_cases hcond : e.right.id = nodeId ∧ e.left.id ∉ acc
      · rw [if_pos hcond] at hy
        rcases collectF_sound edges fuel e.left.id acc y hy with h | h
        · exact hacc y h
        · refine Or.inr (Relation.ReflTransGen.head ?_ h)
          exact ⟨e, hsub e (List.mem_cons_self e rest), hcond.1, rfl⟩
      · rw [if_neg hcond] at hy
        exact hacc y hy

/-- With sufficient fuel, every id the collector adds is fully processed:
its direct dependencies are in the result as well.  (For the target itself
this holds because the full edge scan at the top level visits every edge
into it.) -/
theorem collectF_closed (edges : List TEdge) :
    ∀ (fuel : Nat) (nodeId : String) (collected : List String),
      nodeId ∉ collected →
      ((insert nodeId (leftIds edges)) \ collected.toFinset).card ≤ fuel →
      ∀ s ∈ collectDependenciesF edges fuel nodeId collected, s ∉ collected →
        ∀ z, depStep edges s z → z ∈ collectDependenciesF edges fuel nodeId collected
  | 0, nodeId, collected => by
    intro hn hb
    exfalso
    have hmem : nodeId ∈ insert nodeId (leftIds edges) \ collected.toFinset :=
      Finset.mem_sdiff.mpr ⟨Finset.mem_insert_self _ _, by simpa [List.mem_toFinset] using hn⟩
    have := Finset.card_pos.mpr ⟨_, hmem⟩
    omega
  | fuel + 1, nodeId, collected => by
    intro hn hb
    show ∀ s ∈ edges.foldl
        (fun acc e => if e.right.id = nodeId ∧ e.left.id ∉ acc then
          collectDependenciesF edges fuel e.left.id acc else acc)
        (collected.insert nodeId), s ∉ collected →
      ∀ z, depStep edges s z → z ∈ edges.foldl
        (fun acc e => if e.right.id = nodeId ∧ e.left.id ∉ acc then
          collectDependenciesF edges fuel e.left.id acc else acc)
        (collected.insert nodeId)
    have hstep_subset : ∀ (acc : List String) (e : TEdge), acc ⊆
        (if e.right.id = nodeId ∧ e.left.id ∉ acc then
          collectDependenciesF edges fuel e.left.id acc else acc) := by
      intro acc e
      split
      · exact subset_collectF edges fuel _ acc
      · exact fun _ h => h
    suffices H : ∀ (es : List TEdge), (∀ e ∈ es, e ∈ edges) →
        ∀ (acc : List String),
        collected.insert nodeId ⊆ acc →
        ((leftIds edges) \ acc.toFinset).card ≤ fuel →
        (∀ y ∈ acc, y ∉ collected.insert nodeId → ∀ z, depStep edges y z → z ∈ acc) →
        ((∀ y ∈ es.foldl
            (fun acc e => if e.right.id = nodeId ∧ e.left.id ∉ acc then
              collectDependenciesF edges fuel e.left.id acc else acc) acc,
            y ∉ collected.insert nodeId → ∀ z, depStep edges y z →
              z ∈ es.foldl
                (fun acc e => if e.right.id = nodeId ∧ e.left.id ∉ acc then
                  collectDependenciesF edges fuel e.left.id acc else acc) acc) ∧
          (∀ e ∈ es, e.right.id = nodeId → e.left.id ∈ es.foldl
            (fun acc e => if e.right.id = nodeId ∧ e.left.id ∉ acc then
              collectDependenciesF edges fuel e.left.id acc else acc) acc)) by
      have hb2 : ((leftIds edges) \ (collected.insert nodeId).toFinset).card ≤ fuel := by
        have hss : (leftIds edges \ (collected.insert nodeId).toFinset) ⊂
            (insert nodeId (leftIds edges) \ collected.toFinset) := by
          constructor
          · intro x hx
            rw [Finset.mem_sdiff] at hx ⊢
            rw [toFinset_list_insert, Finset.mem_insert] at hx
            exact ⟨Finset.mem_insert_of_mem hx.1, fun hc => hx.2 (Or.inr hc)⟩
          · intro hsub
            have h1 : nodeId ∈ insert nodeId (leftIds edges) \ collected.toFinset :=
              Finset.mem_sdiff.mpr
                ⟨Finset.mem_insert_self _ _, by simpa [List.mem_toFinset] using hn⟩
            have h2 := hsub h1
            rw [Finset.mem_sdiff, toFinset_list_insert] at h2
            exact h2.2 (Finset.mem_insert_self _ _)
        have := Finset.card_lt_card hss
        omega
      obtain ⟨hclosed, hproc⟩ := H edges (fun _ he => he) (collected.insert nodeId)
        (fun x hx => hx) hb2 (fun y hy hny => absurd hy hny)
      intro s hs hsc z hz
      by_cases hsn : s = nodeId
      · subst hsn
        obtain ⟨e, he, hr, hl⟩ := hz
        rw [← hl]
        exact hproc e he hr
      · refine hclosed s hs ?_ z hz
        intro hmem
        rcases List.mem_insert_iff.mp hmem with h | h
        · exact hsn h
        · exact hsc h
    intro es
    induction es with
    | nil =>
      intro _ acc _ _ hA3
      exact ⟨hA3, fun e he => absurd he (List.not_mem_nil e)⟩
    | cons e rest ih =>
      intro hsub acc hA1 hA2 hA3
      rw [List.foldl_cons]
      have hsub' : ∀ e' ∈ rest, e' ∈ edges :=
        fun e' he' => hsub e' (List.mem_cons_of_mem e he')
      have hstep : acc ⊆ (if e.right.id = nodeId ∧ e.left.id ∉ acc then
          collectDependenciesF edges fuel e.left.id acc else acc) := hstep_subset acc e
      have hA1' : collected.insert nodeId ⊆ (if e.right.id = nodeId ∧ e.left.id ∉ acc then
          collectDependenciesF edges fuel e.left.id acc else acc) :=
        fun x hx => hstep (hA1 hx)
      have hA2' : ((leftIds edges) \ (if e.right.id = nodeId ∧ e.left.id ∉ acc then
          collectDependenciesF edges fuel e.left.id acc else acc).toFinset).card ≤ fuel := by
        refine le_trans (Finset.card_le_card ?_) hA2
        intro x hx
        rw [Finset.mem_sdiff] at hx ⊢
        refine ⟨hx.1, fun hc => hx.2 ?_⟩
        rw [List.mem_toFinset] at hc ⊢
        exact hstep hc
      have hA3' : ∀ y ∈ (if e.right.id = nodeId ∧ e.left.id ∉ acc then
          collectDependenciesF edges fuel e.left.id acc else acc),
          y ∉ collected.insert nodeId → ∀ z, depStep edges y z →
            z ∈ (if e.right.id = nodeId ∧ e.left.id ∉ acc then
              collectDependenciesF edges fuel e.left.id acc else acc) := by
        by_cases hcond : e.right.id = nodeId ∧ e.left.id ∉ acc
        · rw [if_pos hcond]
          intro y hy hny z hz
          by_cases hyacc : y ∈ acc
          · exact subset_collectF edges fuel _ acc (hA3 y hyacc hny z hz)
          · have hlb : (insert e.left.id (leftIds edges) \ acc.toFinset).card ≤ fuel := by
              have : insert e.left.id (leftIds edges) = leftIds edges := by
                refine Finset.insert_eq_self.mpr ?_
                rw [leftIds, List.mem_toFinset, List.mem_map]
                exact ⟨e, hsub e (List.mem_cons_self e rest), rfl⟩
              rw [this]
              exact hA2
            exact collectF_closed edges fuel e.left.id acc hcond.2 hlb y hy hyacc z hz
        · rw [if_neg hcond]
          exact hA3
      obtain ⟨hcl, hpr⟩ := ih hsub' _ hA1' hA2' hA3'
      refine ⟨hcl, ?_⟩
      intro e' he' hr'
      rcases List.mem_cons.mp he' with rfl | he'
      · by_cases hcond : e'.right.id = nodeId ∧ e'.left.id ∉ acc
        · have h1 : e'.left.id ∈ (if e'.right.id = nodeId ∧ e'.left.id ∉ acc then
              collectDependenciesF edges fuel e'.left.id acc else acc) := by
            rw [if_pos hcond]
            refine mem_collectF_self edges fuel ?_ e'.left.id acc
            have hmem : e'.left.id ∈ leftIds edges \ acc.toFinset := by
              rw [Finset.mem_sdiff, leftIds, List.mem_toFinset, List.mem_map]
              exact ⟨⟨e', hsub e' (List.mem_cons_self e' rest), rfl⟩,
                by simpa [List.mem_toFinset] using hcond.2⟩
            have := Finset.card_pos.mpr ⟨_, hmem⟩
            omega
          exact foldl_subset _ hstep_subset rest _ h1
        · have hacc : e'.left.id ∈ acc := by
            by_contra hno
            exact hcond ⟨hr', hno⟩
          exact foldl_subset _ hstep_subset rest _ (hstep_subset acc e' hacc)
      · exact hpr e' he' hr'

/-- The collector computes exactly the dependency closure of the target:
membership coincides with iterated `depStep` reachability. -/
theorem mem_collectDependencies_iff (edges : List TEdge) (target s : String) :
    s ∈ collectDependencies edges target ↔
      Relation.ReflTransGen (depStep edges) target s := by
  constructor
  · intro h
    rcases collectF_sound edges _ target [] s h with h0 | h0
    · exact absurd h0 (List.not_mem_nil s)
    · exact h0
  · intro h
    induction h with
    | refl => exact mem_collectF_self edges _ (by omega) target []
    | tail hxy hstep ih =>
      refine collectF_closed edges _ target [] (List.not_mem_nil target) ?_ _ ih
        (List.not_mem_nil _) _ hstep
      have h1 : (leftIds edges).card ≤ edges.length :=
        le_trans (List.toFinset_card_le _) (by simp)
      have h2 : (insert target (leftIds edges)).card ≤ (leftIds edges).card + 1 :=
        Finset.card_insert_le _ _
      simp only [List.toFinset_nil, Finset.sdiff_empty]
      omega

/-! # Scheduler: correctness of the wave loop (Kahn's algorithm)

The invariant carried through the loop is that the in-degree map of every id
equals the number of eligible edges into it from not-yet-completed left
endpoints (`countInto`).  Acyclicity (a topological rank) then guarantees a
minimal-rank incomplete node is always available, so the loop never reports
the defensive deadlock and completes every eligible node exactly once, each
wave strictly after the waves of its dependencies. -/

/-- Value of the decrement loop of one completed node. -/
theorem foldl_update_sub :
    ∀ (l : List TNode) (f : String → Int) (s : String),
      (l.foldl (fun f dep => Function.update f dep.id (f dep.id - 1)) f) s =
        f s - (l.countP fun dep => dep.id == s : Nat)
  | [], f, s => by simp
  | dep :: rest, f, s => by
    rw [List.foldl_cons, foldl_update_sub rest _ s, List.countP_cons]
    by_cases h : dep.id = s
    · rw [h, Function.update_same]
      simp only [h, beq_self_eq_true, if_true]
      push_cast
      ring
    · rw [Function.update_noteq (fun hc => h hc.symm)]
      simp only [beq_iff_eq, h, if_false]
      push_cast
      ring

/-- Completing `nodeId` decrements each id by the number of eligible edges
from `nodeId` to it. -/
theorem decOut_apply (required : String → Bool) (edges : List TEdge)
    (nodeId : String) (f : String → Int) (s : String) :
    decOut required edges nodeId f s = f s - (countOut required edges nodeId s : Nat) := by
  rw [decOut, foldl_update_sub]
  congr 1
  rw [outEdgesOf, List.countP_map, List.countP_filter, countOut]
  refine congrArg Nat.cast (List.countP_congr ?_)
  intro e _
  show ((e.right.id == s) &&
      (required e.left.id && required e.right.id && (e.left.id == nodeId))) = true ↔ _
  constructor
  · intro h
    simp only [Bool.and_eq_true] at h ⊢
    exact ⟨⟨⟨h.2.1.1, h.2.1.2⟩, h.2.2⟩, h.1⟩
  · intro h
    simp only [Bool.and_eq_true] at h ⊢
    exact ⟨h.2, ⟨⟨h.1.1.1, h.1.1.2⟩, h.1.2⟩⟩

/-- Marking `nodeId` completed removes exactly its outgoing eligible edges
from every in-count. -/
theorem countInto_insert (required : String → Bool) :
    ∀ (edges : List TEdge) (nodeId : String) (completed : List String),
      nodeId ∉ completed → ∀ (s : String),
      countInto required edges completed s =
        countInto required edges (completed.insert nodeId) s
          + countOut required edges nodeId s
  | [], _, _, _, _ => rfl
  | e :: rest, nodeId, completed, hn, s => by
    have ih := countInto_insert required rest nodeId completed hn s
    simp only [countInto, countOut, List.countP_cons] at ih ⊢
    have hper : (if (required e.left.id && required e.right.id && (e.right.id == s)
          && !decide (e.left.id ∈ completed)) = true then 1 else 0)
        = (if (required e.left.id && required e.right.id && (e.right.id == s)
            && !decide (e.left.id ∈ completed.insert nodeId)) = true then 1 else 0)
          + (if (required e.left.id && required e.right.id && (e.left.id == nodeId)
            && (e.right.id == s)) = true then 1 else 0) := by
      by_cases h4 : e.left.id = nodeId
      · by_cases h5 : e.left.id ∈ completed
        · exact absurd (h4 ▸ h5) hn
        · by_cases h1 : required e.left.id <;> by_cases h2 : required e.right.id <;>
            by_cases h3 : e.right.id = s <;>
            simp [h1, h2, h3, h4, h5, hn, List.mem_insert_iff]
      · by_cases h5 : e.left.id ∈ completed <;>
          by_cases h1 : required e.left.id <;> by_cases h2 : required e.right.id <;>
          by_cases h3 : e.right.id = s <;>
          simp [h1, h2, h3, h4, h5, hn, List.mem_insert_iff]
    rw [hper]
    omega

/-- One node's bookkeeping step preserves the in-degree invariant. -/
theorem inv_step (required : String → Bool) (edges : List TEdge) (n : TNode)
    (completed : List String) (f : String → Int)
    (hf : ∀ s, f s = (countInto required edges completed s : Nat))
    (hn : n.id ∉ completed) :
    ∀ s, decOut required edges n.id f s =
      (countInto required edges (completed.insert n.id) s : Nat) := by
  intro s
  rw [decOut_apply, hf s, countInto_insert required edges n.id completed hn s]
  push_cast
  ring

/-- The wave bookkeeping preserves the in-degree invariant and adds exactly
the ids of the wave to the completed set. -/
theorem completeWave_spec (required : String → Bool) (edges : List TEdge) :
    ∀ (l : List TNode) (completed : List String) (f : String → Int),
      (∀ s, f s = (countInto required edges completed s : Nat)) →
      (∀ n ∈ l, n.id ∉ completed) →
      (l.map TNode.id).Nodup →
      (∀ s, (completeWave required edges l completed f).2 s =
        (countInto required edges (completeWave required edges l completed f).1 s : Nat)) ∧
      (∀ s, s ∈ (completeWave required edges l completed f).1 ↔
        s ∈ completed ∨ s ∈ l.map TNode.id)
  | [], completed, f => by
    intro hf _ _
    exact ⟨hf, by simp [completeWave]⟩
  | n :: rest, completed, f => by
    intro hf hnc hnd
    have hstep : completeWave required edges (n :: rest) completed f =
        completeWave required edges rest (completed.insert n.id)
          (decOut required edges n.id f) := rfl
    rw [hstep]
    have hn : n.id ∉ completed := hnc n (List.mem_cons_self n rest)
    have hf' := inv_step required edges n completed f hf hn
    have hnc' : ∀ m ∈ rest, m.id ∉ completed.insert n.id := by
      intro m hm hmem
      rcases List.mem_insert_iff.mp hmem with h | h
      · rw [List.map_cons, List.nodup_cons] at hnd
        exact hnd.1 (h ▸ List.mem_map_of_mem TNode.id hm)
      · exact hnc m (List.mem_cons_of_mem n hm) h
    have hnd' : (rest.map TNode.id).Nodup := by
      rw [List.map_cons, List.nodup_cons] at hnd
      exact hnd.2
    obtain ⟨hinv, hmem⟩ := completeWave_spec required edges rest
      (completed.insert n.id) (decOut required edges n.id f) hf' hnc' hnd'
    refine ⟨hinv, ?_⟩
    intro s
    rw [hmem s, List.mem_insert_iff, List.map_cons, List.mem_cons]
    tauto

/-- Value of the in-degree initialization fold. -/
theorem foldl_init_apply (required : String → Bool) :
    ∀ (es : List TEdge) (f : String → Int) (s : String),
      (es.foldl
        (fun f e =>
          if required e.left.id && required e.right.id then
            Function.update f e.right.id (f e.right.id + 1)
          else f) f) s =
        f s + (es.countP fun e =>
          required e.left.id && required e.right.id && (e.right.id == s) : Nat)
  | [], f, s => by simp
  | e :: rest, f, s => by
    rw [List.foldl_cons, List.countP_cons]
    cases hreq : (required e.left.id && required e.right.id) with
    | false =>
      rw [if_neg (by simp [hreq]), foldl_init_apply required rest f s]
      simp [hreq]
    | true =>
      rw [if_pos rfl, foldl_init_apply required rest _ s]
      by_cases hs : e.right.id = s
      · rw [hs, Function.update_same]
        simp only [hreq, hs, beq_self_eq_true, Bool.true_and, if_true]
        push_cast
        ring
      · rw [Function.update_noteq (fun hc => hs hc.symm)]
        have hb : (e.right.id == s) = false := by simp [hs]
        simp [hb]

/-- The in-degree map starts out as the full eligible in-count. -/
theorem initInDegree_spec (required : String → Bool) (edges : List TEdge) (s : String) :
    initInDegree required edges s = (countInto required edges [] s : Nat) := by
  rw [initInDegree, foldl_init_apply]
  have h : (edges.countP fun e =>
      required e.left.id && required e.right.id && (e.right.id == s))
      = countInto required edges [] s := by
    rw [countInto]
    refine List.countP_congr ?_
    intro e _
    simp
  rw [h]
  ring

/-- Correctness of the shared scheduling loop on a graph with unique node
ids, registered edge endpoints and a topological rank, for any pool of
required-and-registered ids: it exits normally, the waves contain exactly
the eligible not-yet-completed nodes (each id once), and every eligible edge
crosses from an earlier wave to a strictly later one. -/
theorem scheduleLoop_spec (nodes : List TNode) (edges : List TEdge)
    (required : String → Bool) (pool : List String)
    (hNodup : (nodes.map TNode.id).Nodup)
    (hEnds : ∀ e ∈ edges, e.left.id ∈ nodes.map TNode.id ∧ e.right.id ∈ nodes.map TNode.id)
    (rank : String → Nat)
    (hRank : ∀ e ∈ edges, rank e.left.id < rank e.right.id)
    (hPool : ∀ s ∈ pool, required s = true ∧ s ∈ nodes.map TNode.id) :
    ∀ (fuel : Nat) (completed : List String) (inDegree : String → Int),
      (∀ s, inDegree s = (countInto required edges completed s : Nat)) →
      ((nodes.map TNode.id).toFinset \ completed.toFinset).card < fuel →
      (scheduleLoop nodes edges required pool fuel completed inDegree).2 = none ∧
      (∀ n, n ∈ (scheduleLoop nodes edges required pool fuel completed inDegree).1.flatten ↔
        (n ∈ nodes ∧ required n.id = true ∧ n.id ∉ completed)) ∧
      ((scheduleLoop nodes edges required pool fuel completed inDegree).1.flatten.map
        TNode.id).Nodup ∧
      (∀ e ∈ edges, required e.left.id = true → required e.right.id = true →
        ∀ (i j : Nat)
          (hi : i < (scheduleLoop nodes edges required pool fuel completed inDegree).1.length)
          (hj : j < (scheduleLoop nodes edges required pool fuel completed inDegree).1.length),
          e.left.id ∈ ((scheduleLoop nodes edges required pool fuel completed inDegree).1.get
            ⟨i, hi⟩).map TNode.id →
          e.right.id ∈ ((scheduleLoop nodes edges required pool fuel completed inDegree).1.get
            ⟨j, hj⟩).map TNode.id → i < j) := by
  intro fuel
  induction fuel with
  | zero =>
    intro completed inDegree _ hcard
    omega
  | succ fuel ih =>
    intro completed inDegree hInv hcard
    set available := nodes.filter (fun n =>
      required n.id && !decide (n.id ∈ completed) && inDegree n.id == 0) with hav
    have hprog : (∃ n ∈ nodes, required n.id = true ∧ n.id ∉ completed) → available ≠ [] := by
      rintro ⟨n0, hn0, hr0, hc0⟩
      set S : Finset String := ((nodes.map TNode.id).toFinset).filter
        (fun s => required s = true ∧ s ∉ completed) with hS
      have hne : S.Nonempty := by
        refine ⟨n0.id, ?_⟩
        rw [hS, Finset.mem_filter, List.mem_toFinset]
        exact ⟨List.mem_map_of_mem TNode.id hn0, hr0, hc0⟩
      obtain ⟨m, hmS, hmin⟩ := Finset.exists_min_image S rank hne
      rw [hS, Finset.mem_filter, List.mem_toFinset, List.mem_map] at hmS
      obtain ⟨⟨nm, hnm, hnmid⟩, hrm, hcm⟩ := hmS
      have hz : countInto required edges completed m = 0 := by
        rw [countInto, List.countP_eq_zero]
        intro e he hpe
        simp only [Bool.and_eq_true, beq_iff_eq, Bool.not_eq_true',
          decide_eq_false_iff_not] at hpe
        obtain ⟨⟨⟨hre1, _⟩, hres⟩, hnc⟩ := hpe
        have hlS : e.left.id ∈ S := by
          rw [hS, Finset.mem_filter, List.mem_toFinset]
          exact ⟨(hEnds e he).1, hre1, hnc⟩
        have hle := hmin e.left.id hlS
        have hlt := hRank e he
        rw [hres] at hlt
        omega
      have hrm' : required nm.id = true := by rw [hnmid]; exact hrm
      have hcm' : nm.id ∉ completed := by rw [hnmid]; exact hcm
      have hid0 : inDegree nm.id = 0 := by
        rw [hInv nm.id, hnmid, hz]
        rfl
      intro hempty
      have hmemav : nm ∈ available := by
        rw [hav, List.mem_filter]
        refine ⟨hnm, ?_⟩
        simp [hrm', hcm', hid0]
      rw [hempty] at hmemav
      exact absurd hmemav (List.not_mem_nil nm)
    by_cases hae : available = []
    · have hnone : ∀ n ∈ nodes, required n.id = true → n.id ∈ completed := by
        intro n hn hr
        by_contra hc
        exact hprog ⟨n, hn, hr, hc⟩ hae
      have hrem : pool.filter (fun s => !decide (s ∈ completed)) = [] := by
        rw [List.filter_eq_nil_iff]
        intro s hs
        obtain ⟨hrs, hms⟩ := hPool s hs
        rw [List.mem_map] at hms
        obtain ⟨n, hn, rfl⟩ := hms
        have := hnone n hn hrs
        simp [this]
      have hred : scheduleLoop nodes edges required pool (fuel + 1) completed inDegree
          = ([], none) := by
        simp only [scheduleLoop]
        rw [← hav, hae]
        simp [hrem]
      rw [hred]
      refine ⟨rfl, ?_, by simp, ?_⟩
      · intro n
        simp only [List.flatten_nil, List.not_mem_nil, false_iff]
        rintro ⟨hn, hr, hc⟩
        exact hc (hnone n hn hr)
      · intro e _ _ _ i j hi _ _ _
        exact absurd hi (by simp)
    · have hsubav : ∀ n ∈ available,
          n ∈ nodes ∧ required n.id = true ∧ n.id ∉ completed ∧ inDegree n.id = 0 := by
        intro n hn
        rw [hav, List.mem_filter] at hn
        obtain ⟨hn1, hn2⟩ := hn
        simp only [Bool.and_eq_true, Bool.not_eq_true', decide_eq_false_iff_not,
          beq_iff_eq] at hn2
        exact ⟨hn1, hn2.1.1, hn2.1.2, hn2.2⟩
      have havnd : (available.map TNode.id).Nodup := by
        refine List.Nodup.sublist ?_ hNodup
        rw [hav]
        exact List.Sublist.map TNode.id (List.filter_sublist nodes)
      obtain ⟨hinv', hmem'⟩ := completeWave_spec required edges available completed inDegree
        hInv (fun n hn => (hsubav n hn).2.2.1) havnd
      set st := completeWave required edges available completed inDegree with hst
      have hsubc : completed ⊆ st.1 := fun x hx => (hmem' x).mpr (Or.inl hx)
      have hcard' : ((nodes.map TNode.id).toFinset \ st.1.toFinset).card < fuel := by
        obtain ⟨n1, hn1⟩ := List.exists_mem_of_ne_nil available hae
        have h1 : n1.id ∈ (nodes.map TNode.id).toFinset := by
          rw [List.mem_toFinset]
          exact List.mem_map_of_mem TNode.id (hsubav n1 hn1).1
        have h2 : n1.id ∉ completed := (hsubav n1 hn1).2.2.1
        have h3 : n1.id ∈ st.1 := (hmem' n1.id).mpr (Or.inr (List.mem_map_of_mem TNode.id hn1))
        have hss : ((nodes.map TNode.id).toFinset \ st.1.toFinset) ⊂
            ((nodes.map TNode.id).toFinset \ completed.toFinset) := by
          constructor
          · intro x hx
            rw [Finset.mem_sdiff] at hx ⊢
            refine ⟨hx.1, fun hc => hx.2 ?_⟩
            rw [List.mem_toFinset] at hc ⊢
            exact hsubc hc
          · intro habs
            have hmem1 : n1.id ∈ ((nodes.map TNode.id).toFinset \ completed.toFinset) := by
              rw [Finset.mem_sdiff]
              exact ⟨h1, by simpa [List.mem_toFinset] using h2⟩
            have := habs hmem1
            rw [Finset.mem_sdiff] at this
            exact this.2 (List.mem_toFinset.mpr h3)
        have := Finset.card_lt_card hss
        omega
      obtain ⟨ih1, ih2, ih3, ih4⟩ := ih st.1 st.2 hinv' hcard'
      have hred : scheduleLoop nodes edges required pool (fuel + 1) completed inDegree =
          (available :: (scheduleLoop nodes edges required pool fuel st.1 st.2).1,
            (scheduleLoop nodes edges required pool fuel st.1 st.2).2) := by
        simp only [scheduleLoop]
        rw [← hav, if_neg (by simp [List.isEmpty_iff, hae]), ← hst]
      rw [hred]
      have hleft_completed : ∀ e ∈ edges, required e.left.id = true →
          required e.right.id = true → e.right.id ∈ available.map TNode.id →
          e.left.id ∈ completed := by
        intro e he hr1 hr2 hrmem
        rw [List.mem_map] at hrmem
        obtain ⟨m, hmav, hmid⟩ := hrmem
        have hz : countInto required edges completed m.id = 0 := by
          have h0 := (hsubav m hmav).2.2.2
          rw [hInv m.id] at h0
          exact_mod_cast h0
        rw [countInto, List.countP_eq_zero] at hz
        have hne := hz e he
        by_contra hlc
        refine hne ?_
        simp [hr1, hr2, hmid, hlc]
      refine ⟨ih1, ?_, ?_, ?_⟩
      · intro n
        rw [List.flatten_cons, List.mem_append]
        constructor
        · rintro (h | h)
          · obtain ⟨h1, h2, h3, _⟩ := hsubav n h
            exact ⟨h1, h2, h3⟩
          · obtain ⟨h1, h2, h3⟩ := (ih2 n).mp h
            exact ⟨h1, h2, fun hc => h3 (hsubc hc)⟩
        · rintro ⟨h1, h2, h3⟩
          by_cases hmemav : n.id ∈ available.map TNode.id
          · left
            rw [List.mem_map] at hmemav
            obtain ⟨m, hmav, hmid⟩ := hmemav
            have heq : m = n := List.inj_on_of_nodup_map hNodup (hsubav m hmav).1 h1 hmid
            exact heq ▸ hmav
          · right
            refine (ih2 n).mpr ⟨h1, h2, ?_⟩
            intro hc
            rcases (hmem' n.id).mp hc with h | h
            · exact h3 h
            · exact hmemav h
      · rw [List.flatten_cons, List.map_append, List.nodup_append]
        refine ⟨havnd, ih3, ?_⟩
        intro x hx1 hx2
        have hx1' : x ∈ st.1 := (hmem' x).mpr (Or.inr hx1)
        rw [List.mem_map] at hx2
        obtain ⟨m, hm, hmid⟩ := hx2
        have := ((ih2 m).mp hm).2.2
        exact this (hmid ▸ hx1')
      · intro e he hr1 hr2 i j hi hj hli hrj
        cases i with
        | zero =>
          cases j with
          | zero =>
            exfalso
            have hli0 : e.left.id ∈ available.map TNode.id := hli
            have hrj0 : e.right.id ∈ available.map TNode.id := hrj
            have hlc := hleft_completed e he hr1 hr2 hrj0
            rw [List.mem_map] at hli0
            obtain ⟨m, hmav, hmid⟩ := hli0
            exact (hsubav m hmav).2.2.1 (hmid ▸ hlc)
          | succ j => omega
        | succ i =>
          cases j with
          | zero =>
            exfalso
            have hrj0 : e.right.id ∈ available.map TNode.id := hrj
            have hlc := hleft_completed e he hr1 hr2 hrj0
            have hli' : e.left.id ∈
                ((scheduleLoop nodes edges required pool fuel st.1 st.2).1.get
                  ⟨i, Nat.lt_of_succ_lt_succ hi⟩).map TNode.id := hli
            have hwave : e.left.id ∈
                ((scheduleLoop nodes edges required pool fuel st.1 st.2).1.flatten.map
                  TNode.id) := by
              rw [List.mem_map] at hli' ⊢
              obtain ⟨m, hm, hmid⟩ := hli'
              refine ⟨m, ?_, hmid⟩
              rw [List.mem_flatten]
              exact ⟨_, List.get_mem _ i _, hm⟩
            rw [List.mem_map] at hwave
            obtain ⟨m, hm, hmid⟩ := hwave
            have := ((ih2 m).mp hm).2.2
            exact this (hmid ▸ hsubc hlc)
          | succ j =>
            have hli' : e.left.id ∈
                ((scheduleLoop nodes edges required pool fuel st.1 st.2).1.get
                  ⟨i, Nat.lt_of_succ_lt_succ hi⟩).map TNode.id := hli
            have hrj' : e.right.id ∈
                ((scheduleLoop nodes edges required pool fuel st.1 st.2).1.get
                  ⟨j, Nat.lt_of_succ_lt_succ hj⟩).map TNode.id := hrj
            have := ih4 e he hr1 hr2 i j (Nat.lt_of_succ_lt_succ hi)
              (Nat.lt_of_succ_lt_succ hj) hli' hrj'
            omega

/-- C4: on a graph with unique node ids, registered edge endpoints and an
acyclic edge set, a full run exits normally, executes every registered node
exactly once (the concatenation of the waves is a permutation of the node
list), and for every edge the wave of its left endpoint strictly precedes
the wave of its right endpoint — so no node starts before all of its
dependencies completed in earlier waves (waves are separated by the
`wg.Wait()` barrier). -/
theorem c4_runTests_topological (d : TDag)
    (hNodup : (d.nodes.map TNode.id).Nodup)
    (hEnds : ∀ e ∈ d.edges,
      e.left.id ∈ d.nodes.map TNode.id ∧ e.right.id ∈ d.nodes.map TNode.id)
    (hAcyclic : Acyclic d.edges) :
    (runTests d).fatal = none ∧
    (runTests d).waves.flatten.Perm d.nodes ∧
    (∀ e ∈ d.edges, ∀ (i j : Nat)
      (hi : i < (runTests d).waves.length) (hj : j < (runTests d).waves.length),
      e.left.id ∈ ((runTests d).waves.get ⟨i, hi⟩).map TNode.id →
      e.right.id ∈ ((runTests d).waves.get ⟨j, hj⟩).map TNode.id → i < j) := by
  obtain ⟨rank, hRank⟩ := hAcyclic
  have hPool : ∀ s ∈ d.nodes.map TNode.id,
      (fun _ => true) s = true ∧ s ∈ d.nodes.map TNode.id := fun s hs => ⟨rfl, hs⟩
  have hInv : ∀ s, initInDegree (fun _ => true) d.edges s =
      (countInto (fun _ => true) d.edges [] s : Nat) :=
    initInDegree_spec (fun _ => true) d.edges
  have hcard : ((d.nodes.map TNode.id).toFinset \ ([] : List String).toFinset).card <
      d.nodes.length + 1 := by
    simp only [List.toFinset_nil, Finset.sdiff_empty]
    have h1 := List.toFinset_card_le (d.nodes.map TNode.id)
    rw [List.length_map] at h1
    omega
  obtain ⟨h1, h2, h3, h4⟩ := scheduleLoop_spec d.nodes d.edges (fun _ => true)
    (d.nodes.map TNode.id) hNodup hEnds rank hRank hPool (d.nodes.length + 1) []
    (initInDegree (fun _ => true) d.edges) hInv hcard
  have hfat : (runTests d).fatal =
      (scheduleLoop d.nodes d.edges (fun _ => true) (d.nodes.map TNode.id)
        (d.nodes.length + 1) [] (initInDegree (fun _ => true) d.edges)).2.map
        Fatal.deadlock := rfl
  have hwaves : (runTests d).waves =
      (scheduleLoop d.nodes d.edges (fun _ => true) (d.nodes.map TNode.id)
        (d.nodes.length + 1) [] (initInDegree (fun _ => true) d.edges)).1 := rfl
  refine ⟨?_, ?_, ?_⟩
  · rw [hfat, h1]
    rfl
  · rw [hwaves]
    have hmemiff : ∀ n, n ∈ (scheduleLoop d.nodes d.edges (fun _ => true)
        (d.nodes.map TNode.id) (d.nodes.length + 1) []
        (initInDegree (fun _ => true) d.edges)).1.flatten ↔ n ∈ d.nodes := by
      intro n
      rw [h2 n]
      constructor
      · exact fun h => h.1
      · exact fun h => ⟨h, rfl, List.not_mem_nil _⟩
    exact (List.perm_ext_iff_of_nodup (List.Nodup.of_map TNode.id h3)
      (List.Nodup.of_map TNode.id hNodup)).mpr hmemiff
  · intro e he i j hi hj hli hrj
    exact h4 e he rfl rfl i j hi hj hli hrj

theorem c4_runTests_topological_witness :
    (dagABCD.nodes.map TNode.id).Nodup ∧
    (∀ e ∈ dagABCD.edges,
      e.left.id ∈ dagABCD.nodes.map TNode.id ∧ e.right.id ∈ dagABCD.nodes.map TNode.id) ∧
    Acyclic dagABCD.edges ∧
    (runTests dagABCD).fatal = none ∧
    (runTests dagABCD).waves.flatten.Perm dagABCD.nodes ∧
    (runTests dagABCD).waves =
      [[{ id := "A", fn := 0 }], [{ id := "B", fn := 1 }, { id := "D", fn := 3 }],
        [{ id := "C", fn := 2 }]] := by
  have hAcyclic : Acyclic dagABCD.edges :=
    ⟨fun s => if s = "A" then 0 else if s = "B" then 1 else if s = "C" then 2 else 1,
      by decide⟩
  have h := c4_runTests_topological dagABCD (by decide) (by decide) hAcyclic
  exact ⟨by decide, by decide, hAcyclic, h.1, h.2.1, rfl⟩

/-- C3: on a graph with unique node ids, registered edge endpoints and an
acyclic edge set, a closure run for a registered target exits normally and
executes exactly the nodes in the target's transitive dependency closure
(the target plus all ancestors over reversed edges), each exactly once, and
no other node. -/
theorem c3_runTo_dependency_closure (d : TDag) (target : String)
    (hNodup : (d.nodes.map TNode.id).Nodup)
    (hEnds : ∀ e ∈ d.edges,
      e.left.id ∈ d.nodes.map TNode.id ∧ e.right.id ∈ d.nodes.map TNode.id)
    (hAcyclic : Acyclic d.edges)
    (hTarget : (findNodeByID d target).isSome = true) :
    (runTo d target).fatal = none ∧
    (∀ n, n ∈ (runTo d target).waves.flatten ↔
      (n ∈ d.nodes ∧ Relation.ReflTransGen (depStep d.edges) target n.id)) ∧
    ((runTo d target).waves.flatten.map TNode.id).Nodup := by
  obtain ⟨rank, hRank⟩ := hAcyclic
  cases hT : findNodeByID d target with
  | none => rw [hT] at hTarget; exact absurd hTarget (by simp)
  | some tn =>
    have htid : target ∈ d.nodes.map TNode.id := by
      rw [findNodeByID] at hT
      have h1 := List.find?_some hT
      have h2 := List.mem_of_find?_eq_some hT
      rw [beq_iff_eq] at h1
      rw [List.mem_map]
      exact ⟨tn, h2, h1⟩
    have hreach_nodes : ∀ s, Relation.ReflTransGen (depStep d.edges) target s →
        s ∈ d.nodes.map TNode.id := by
      intro s h
      induction h with
      | refl => exact htid
      | tail hxy hstep ihx =>
        obtain ⟨e, he, _, hl⟩ := hstep
        rw [← hl]
        exact (hEnds e he).1
    have hPool : ∀ s ∈ collectDependencies d.edges target,
        (fun s => decide (s ∈ collectDependencies d.edges target)) s = true ∧
          s ∈ d.nodes.map TNode.id := by
      intro s hs
      refine ⟨by simpa using hs, ?_⟩
      exact hreach_nodes s ((mem_collectDependencies_iff d.edges target s).mp hs)
    have hInv : ∀ s, initInDegree
        (fun s => decide (s ∈ collectDependencies d.edges target)) d.edges s =
        (countInto (fun s => decide (s ∈ collectDependencies d.edges target))
          d.edges [] s : Nat) :=
      initInDegree_spec _ d.edges
    have hcard : ((d.nodes.map TNode.id).toFinset \ ([] : List String).toFinset).card <
        d.nodes.length + 1 := by
      simp only [List.toFinset_nil, Finset.sdiff_empty]
      have h1 := List.toFinset_card_le (d.nodes.map TNode.id)
      rw [List.length_map] at h1
      omega
    obtain ⟨h1, h2, h3, h4⟩ := scheduleLoop_spec d.nodes d.edges
      (fun s => decide (s ∈ collectDependencies d.edges target))
      (collectDependencies d.edges target) hNodup hEnds rank hRank hPool
      (d.nodes.length + 1) []
      (initInDegree (fun s => decide (s ∈ collectDependencies d.edges target)) d.edges)
      hInv hcard
    have hfat : (runTo d target).fatal =
        (scheduleLoop d.nodes d.edges
          (fun s => decide (s ∈ collectDependencies d.edges target))
          (collectDependencies d.edges target) (d.nodes.length + 1) []
          (initInDegree (fun s => decide (s ∈ collectDependencies d.edges target))
            d.edges)).2.map Fatal.deadlock := by
      simp only [runTo, hT]
    have hwaves : (runTo d target).waves =
        (scheduleLoop d.nodes d.edges
          (fun s => decide (s ∈ collectDependencies d.edges target))
          (collectDependencies d.edges target) (d.nodes.length + 1) []
          (initInDegree (fun s => decide (s ∈ collectDependencies d.edges target))
            d.edges)).1 := by
      simp only [runTo, hT]
    refine ⟨?_, ?_, ?_⟩
    · rw [hfat, h1]
      rfl
    · intro n
      rw [hwaves, h2 n]
      constructor
      · rintro ⟨hn, hr, _⟩
        refine ⟨hn, ?_⟩
        rw [decide_eq_true_eq] at hr
        exact (mem_collectDependencies_iff d.edges target n.id).mp hr
      · rintro ⟨hn, hr⟩
        refine ⟨hn, ?_, List.not_mem_nil _⟩
        rw [decide_eq_true_eq]
        exact (mem_collectDependencies_iff d.edges target n.id).mpr hr
    · rw [hwaves]
      exact h3

theorem c3_runTo_dependency_closure_witness :
    (dagABC.nodes.map TNode.id).Nodup ∧
    (∀ e ∈ dagABC.edges,
      e.left.id ∈ dagABC.nodes.map TNode.id ∧ e.right.id ∈ dagABC.nodes.map TNode.id) ∧
    Acyclic dagABC.edges ∧
    (findNodeByID dagABC "B").isSome = true ∧
    (runTo dagABC "B").fatal = none ∧
    (∀ n, n ∈ (runTo dagABC "B").waves.flatten ↔
      (n ∈ dagABC.nodes ∧ Relation.ReflTransGen (depStep dagABC.edges) "B" n.id)) ∧
    (runTo dagABC "B").waves = [[{ id := "A", fn := 0 }], [{ id := "B", fn := 1 }]] := by
  have hAcyclic : Acyclic dagABC.edges :=
    ⟨fun s => if s = "A" then 0 else if s = "B" then 1 else 2, by decide⟩
  have h := c3_runTo_dependency_closure dagABC "B" (by decide) (by decide) hAcyclic rfl
  exact ⟨by decide, by decide, hAcyclic, rfl, h.1, h.2.1, rfl⟩

theorem c8_addEdge_first_error_no_rollback_witness :
    (addEdge dagABC "A" ["C", "B"]).2 =
      Except.error "adding edge from A to C would create a cycle" ∧
    ((addEdge dagABC "A" ["C", "B"]).1.nodes = dagABC.nodes) ∧
    ((findNodeByID dagABC "A" = none ∧ (addEdge dagABC "A" ["C", "B"]).1 = dagABC ∧
        "adding edge from A to C would create a cycle" = "node A does not exist") ∨
      (∃ pre t post, (["C", "B"] : List String) = pre ++ t :: post ∧
        (∃ es, addEdge dagABC "A" pre = ((addEdge dagABC "A" ["C", "B"]).1, Except.ok es)) ∧
        addEdge (addEdge dagABC "A" ["C", "B"]).1 "A" [t] =
          ((addEdge dagABC "A" ["C", "B"]).1,
            Except.error "adding edge from A to C would create a cycle"))) :=
  ⟨rfl,
   (c8_addEdge_first_error_no_rollback dagABC "A" ["C", "B"]).1,
   (c8_addEdge_first_error_no_rollback dagABC "A" ["C", "B"]).2.2
     "adding edge from A to C would create a cycle" rfl⟩

end Tdag
